import Mathlib

/-!
Verification of the go-drive core against its specification.

The development shallowly embeds the three parts of the core that the
claims are about:

* the permission resolution engine (`pathPermissionLess`,
  `ResolveAcceptedPermissions` from `src/common/drive_utils.go`);
* the cross-drive copy engine (`copyAll` from `src/common/drive_utils.go`);
* the local-filesystem drive (`FsDrive.Get` / `FsDrive.MakeDir` from the
  `fs` drive source) and the content-delivery function
  (`DownloadIContent` from `src/common/drive_utils.go`).

Machine integers are modelled as `Nat`/`Int`; permission bitmasks as `Nat`
with the kernel-computable bitwise operations.  Fallible Go code returns
`Except`/`Option`.  Stateful code threads its state explicitly.
-/

namespace GoDrive

/-! ## The permission data model

The `types` package of the repository is not among the given sources; the
record and its accessors are modelled from the specification. -/

/-- Modelled from the spec: the subject of a rule is
`Anonymous | User(id) | Group(id)` (section 3, "PathPermission rule"). -/
inductive Subject where
  | anonymous : Subject
  | user : String → Subject
  | group : String → Subject
deriving DecidableEq, Repr

/-- Modelled from the spec: one access-control rule, with `path` (scope),
`depth` (number of path segments), `subject`, `policy` (ordinal strength
used for tie-breaking), `permission` (capability bitmask) and accept /
reject semantics.  The spec describes "a mode flag distinguishing Accept
rules from Reject rules" but also states that a single rule "may
simultaneously carry Accept and Reject semantics (checked independently
via IsAccept()/IsReject())", so the two sides of the mode are modelled as
independent flags. -/
structure PathPermission where
  path : String
  depth : Int
  subject : Subject
  policy : Nat
  permission : Nat
  modeAccept : Bool
  modeReject : Bool
deriving DecidableEq, Repr

/-- Modelled from the spec: subject-class test used by the comparator. -/
def PathPermission.IsForAnonymous (p : PathPermission) : Bool :=
  match p.subject with
  | .anonymous => true
  | _ => false

/-- Modelled from the spec: subject-class test used by the comparator. -/
def PathPermission.IsForUser (p : PathPermission) : Bool :=
  match p.subject with
  | .user _ => true
  | _ => false

/-- Modelled from the spec: Accept-mode test, independent of `IsReject`. -/
def PathPermission.IsAccept (p : PathPermission) : Bool := p.modeAccept

/-- Modelled from the spec: Reject-mode test, independent of `IsAccept`. -/
def PathPermission.IsReject (p : PathPermission) : Bool := p.modeReject

/-- Modelled from the spec: the zero capability bitmask. -/
def PermissionEmpty : Nat := 0

/-- Modelled from the spec: the read capability bit. -/
def PermissionRead : Nat := 1

/-- Modelled from the spec: the write capability bit. -/
def PermissionWrite : Nat := 2

/-- Bitwise AND NOT: Go `a & ^b` on a nonnegative machine integer,
written with kernel-computable `Nat` operations
(`a ^^^ (a &&& b)` has exactly the bits of `a` that are not in `b`). -/
def andNot (a b : Nat) : Nat := a ^^^ (a &&& b)

/-! ## The comparator and the engine, from `src/common/drive_utils.go` -/

/-- Embedding of `pathPermissionLess` (drive_utils.go lines 39-68),
following the Go nesting exactly. -/
def pathPermissionLess (a b : PathPermission) : Bool :=
  if a.depth ≠ b.depth then
    decide (a.depth > b.depth)
  else
    if a.IsForAnonymous then
      if b.IsForAnonymous then decide (a.policy < b.policy) else false
    else
      if b.IsForAnonymous then true
      else
        if a.IsForUser then
          (if b.IsForUser then decide (a.policy < b.policy) else true)
        else
          (if b.IsForUser then false else decide (a.policy < b.policy))

/-- The non-strict order induced by the comparator: `a` may be placed
before `b` exactly when `b` is not strictly less than `a`. -/
abbrev PpLe (a b : PathPermission) : Prop := pathPermissionLess b a = false

instance : DecidableRel PpLe := fun _ _ => instDecidableEqBool _ _

/-- Model of `sort.Slice(items, pathPermissionLess)` (drive_utils.go
line 71).  Go's `sort.Slice` guarantees only that the result is some
rearrangement of the input that is sorted by the comparator (the sort is
not stable); insertion sort by the induced non-strict order is one such
rearrangement and serves as the deterministic model. -/
def sortPathPermissions (items : List PathPermission) : List PathPermission :=
  List.insertionSort PpLe items

/-- One iteration of the fold in `ResolveAcceptedPermissions`
(drive_utils.go lines 74-83).  The state is the pair
`(acceptedPermission, rejectedPermission)`.  `andNot x y` is Go `x & ^y`. -/
def resolveStep (s : Nat × Nat) (item : PathPermission) : Nat × Nat :=
  let acc := if item.IsAccept then s.1 ||| andNot item.permission s.2 else s.1
  let acc := if item.IsReject then andNot acc (andNot item.permission acc) else acc
  let rej := if item.IsReject then s.2 ||| item.permission else s.2
  (acc, rej)

/-- Embedding of `ResolveAcceptedPermissions` (drive_utils.go lines
70-85): sort, fold, return the accepted mask. -/
def ResolveAcceptedPermissions (items : List PathPermission) : Nat :=
  ((sortPathPermissions items).foldl resolveStep (PermissionEmpty, PermissionEmpty)).1

/-- The same call including its effect on the caller: `sort.Slice` sorts
the caller's slice in place, so after the call the caller's sequence is
the sorted rearrangement.  The first component is the returned mask, the
second the contents of the argument slice after the call. -/
def ResolveAcceptedPermissionsRun (items : List PathPermission) :
    Nat × List PathPermission :=
  (ResolveAcceptedPermissions items, sortPathPermissions items)

/-! ## Order-theoretic facts about the comparator -/

/-- Rank of a subject class in the sort order: User before Group before
Anonymous. -/
def subjectRank : Subject → Nat
  | .user _ => 0
  | .group _ => 1
  | .anonymous => 2

/-- The three sort keys of a rule, in precedence order. -/
def sortKey (p : PathPermission) : Int × Nat × Nat :=
  (p.depth, subjectRank p.subject, p.policy)

theorem pathPermissionLess_iff (a b : PathPermission) :
    pathPermissionLess a b = true ↔
      (b.depth < a.depth ∨
        (a.depth = b.depth ∧
          (subjectRank a.subject < subjectRank b.subject ∨
            (subjectRank a.subject = subjectRank b.subject ∧
              a.policy < b.policy)))) := by
  unfold pathPermissionLess PathPermission.IsForAnonymous PathPermission.IsForUser
  rcases a with ⟨_, ad, as, ap, _, _, _⟩
  rcases b with ⟨_, bd, bs, bp, _, _, _⟩
  by_cases h : ad = bd <;>
    cases as <;> cases bs <;>
      simp [h, subjectRank]

theorem pathPermissionLess_asymm {a b : PathPermission}
    (h : pathPermissionLess a b = true) : pathPermissionLess b a = false := by
  rcases hba : pathPermissionLess b a with _ | _
  · rfl
  · rw [pathPermissionLess_iff] at h hba
    exfalso
    omega

instance : IsTotal PathPermission PpLe where
  total a b := by
    rcases h : pathPermissionLess b a with _ | _
    · exact Or.inl h
    · exact Or.inr (pathPermissionLess_asymm h)

instance : IsTrans PathPermission PpLe where
  trans a b c hab hbc := by
    show pathPermissionLess c a = false
    rcases h : pathPermissionLess c a with _ | _
    · rfl
    · have h1 : ¬ pathPermissionLess b a = true := by simp [hab]
      have h2 : ¬ pathPermissionLess c b = true := by simp [hbc]
      rw [pathPermissionLess_iff] at h h1 h2
      exfalso
      omega

theorem sortKey_eq_of_tie {a b : PathPermission}
    (hab : PpLe a b) (hba : PpLe b a) : sortKey a = sortKey b := by
  have h1 : ¬ pathPermissionLess b a = true := by simp [hab]
  have h2 : ¬ pathPermissionLess a b = true := by simp [hba]
  rw [pathPermissionLess_iff] at h1 h2
  unfold sortKey
  simp only [Prod.mk.injEq]
  refine ⟨?_, ?_, ?_⟩ <;> omega

/-- Two sorted rearrangements of the same rules are identical as soon as
no two distinct rules tie on all three sort keys. -/
theorem sorted_perm_distinctKeys_eq :
    ∀ (l₁ l₂ : List PathPermission), l₁.Perm l₂ →
      l₁.Pairwise PpLe → l₂.Pairwise PpLe →
      l₁.Pairwise (fun a b => sortKey a ≠ sortKey b) → l₁ = l₂ := by
  intro l₁
  induction l₁ with
  | nil =>
    intro l₂ hp _ _ _
    exact hp.nil_eq
  | cons x xs ih =>
    intro l₂ hp hs₁ hs₂ hk
    cases l₂ with
    | nil => exact absurd hp.symm (by simp [List.Perm.nil_eq, List.Perm])
    | cons y ys =>
      have hxy : x = y := by
        by_contra hne
        have hxmem : x ∈ y :: ys := hp.subset (List.mem_cons_self x xs)
        have hxys : x ∈ ys := by
          rcases List.mem_cons.mp hxmem with h | h
          · exact absurd h hne
          · exact h
        have hymem : y ∈ x :: xs := hp.symm.subset (List.mem_cons_self y ys)
        have hyxs : y ∈ xs := by
          rcases List.mem_cons.mp hymem with h | h
          · exact absurd h.symm hne
          · exact h
        have h1 : PpLe x y := (List.pairwise_cons.mp hs₁).1 y hyxs
        have h2 : PpLe y x := (List.pairwise_cons.mp hs₂).1 x hxys
        exact (List.pairwise_cons.mp hk).1 y hyxs (sortKey_eq_of_tie h1 h2)
      subst hxy
      have hp' : xs.Perm ys := hp.cons_inv
      have := ih ys hp' (List.pairwise_cons.mp hs₁).2
        (List.pairwise_cons.mp hs₂).2 (List.pairwise_cons.mp hk).2
      rw [this]

/-! ## Bit-level facts about the fold -/

theorem testBit_andNot (a b i : Nat) :
    (andNot a b).testBit i = (a.testBit i && !(b.testBit i)) := by
  simp only [andNot, Nat.testBit_xor, Nat.testBit_land]
  cases a.testBit i <;> cases b.testBit i <;> rfl

/-- The clearing step of a Reject rule, `accepted &= ^(perm & ^accepted)`,
never changes `accepted`: the bits it clears are exactly bits that are
already absent. -/
theorem andNot_absorb (a p : Nat) : andNot a (andNot p a) = a := by
  apply Nat.eq_of_testBit_eq
  intro i
  simp only [testBit_andNot]
  cases a.testBit i <;> cases p.testBit i <;> rfl

theorem resolveStep_fst (s : Nat × Nat) (item : PathPermission) :
    (resolveStep s item).1 =
      if item.IsAccept then s.1 ||| andNot item.permission s.2 else s.1 := by
  unfold resolveStep
  cases hr : item.IsReject <;> cases ha : item.IsAccept <;>
    simp [hr, ha, andNot_absorb]

theorem resolveStep_snd (s : Nat × Nat) (item : PathPermission) :
    (resolveStep s item).2 =
      if item.IsReject then s.2 ||| item.permission else s.2 := by
  unfold resolveStep
  cases hr : item.IsReject <;> simp [hr]

theorem resolveStep_acc_iff (s : Nat × Nat) (item : PathPermission) (X : Nat) :
    (resolveStep s item).1.testBit X = true ↔
      (s.1.testBit X = true ∨
        (item.IsAccept = true ∧ item.permission.testBit X = true ∧
          s.2.testBit X = false)) := by
  rw [resolveStep_fst]
  cases ha : item.IsAccept <;>
    simp [ha, Nat.testBit_lor, testBit_andNot]

theorem resolveStep_rej_mono (s : Nat × Nat) (item : PathPermission) (X : Nat)
    (h : s.2.testBit X = true) : (resolveStep s item).2.testBit X = true := by
  rw [resolveStep_snd]
  cases hr : item.IsReject <;> simp [Nat.testBit_lor, h]

theorem resolveStep_acc_frozen (s : Nat × Nat) (item : PathPermission) (X : Nat)
    (h : s.2.testBit X = true) :
    (resolveStep s item).1.testBit X = s.1.testBit X := by
  cases hb : s.1.testBit X
  · cases hc : (resolveStep s item).1.testBit X
    · rfl
    · rcases (resolveStep_acc_iff s item X).mp hc with h1 | ⟨_, _, h3⟩
      · rw [hb] at h1; simp at h1
      · rw [h] at h3; exact h3
  · exact (resolveStep_acc_iff s item X).mpr (Or.inl hb)

theorem foldl_rej_mono :
    ∀ (l : List PathPermission) (s : Nat × Nat) (X : Nat),
      s.2.testBit X = true → (l.foldl resolveStep s).2.testBit X = true := by
  intro l
  induction l with
  | nil => intro s X h; exact h
  | cons a l ih =>
    intro s X h
    rw [List.foldl_cons]
    exact ih _ X (resolveStep_rej_mono s a X h)

/-- Once a bit is in the rejected mask, every later iteration leaves its
accepted-mask value unchanged. -/
theorem foldl_acc_frozen :
    ∀ (l : List PathPermission) (s : Nat × Nat) (X : Nat),
      s.2.testBit X = true →
      (l.foldl resolveStep s).1.testBit X = s.1.testBit X := by
  intro l
  induction l with
  | nil => intro s X _; rfl
  | cons a l ih =>
    intro s X h
    rw [List.foldl_cons, ih _ X (resolveStep_rej_mono s a X h)]
    exact resolveStep_acc_frozen s a X h

/-- Every accepted bit either was already accepted at the start of the
fold or comes from the permission of some Accept rule in the list. -/
theorem foldl_acc_provenance :
    ∀ (l : List PathPermission) (s : Nat × Nat) (X : Nat),
      (l.foldl resolveStep s).1.testBit X = true →
      s.1.testBit X = true ∨
        ∃ r ∈ l, r.IsAccept = true ∧ r.permission.testBit X = true := by
  intro l
  induction l with
  | nil => intro s X h; exact Or.inl h
  | cons a l ih =>
    intro s X h
    rw [List.foldl_cons] at h
    rcases ih _ X h with h1 | ⟨r, hr, h2, h3⟩
    · rcases (resolveStep_acc_iff s a X).mp h1 with h2 | ⟨h3, h4, _⟩
      · exact Or.inl h2
      · exact Or.inr ⟨a, List.mem_cons_self a l, h3, h4⟩
    · exact Or.inr ⟨r, List.mem_cons_of_mem a hr, h2, h3⟩

theorem foldl_acc_noaccept :
    ∀ (l : List PathPermission) (s : Nat × Nat),
      (∀ r ∈ l, r.IsAccept = false) → (l.foldl resolveStep s).1 = s.1 := by
  intro l
  induction l with
  | nil => intro s _; rfl
  | cons a l ih =>
    intro s h
    rw [List.foldl_cons, ih _ fun r hr => h r (List.mem_cons_of_mem a hr)]
    rw [resolveStep_fst, h a (List.mem_cons_self a l)]
    simp

/-! ## Claims about the permission engine -/

/-- C7: `pathPermissionLess` implements the specified total order: higher
depth sorts first regardless of subject class; at equal depth
Anonymous-subject rules sort after all non-Anonymous rules; among
equal-depth non-Anonymous rules User sorts before Group; and within the
same depth and subject class, lower policy sorts first. -/
theorem c7_pathPermissionLess_order (a b : PathPermission) :
    (a.depth ≠ b.depth → pathPermissionLess a b = decide (a.depth > b.depth)) ∧
    (a.depth = b.depth → a.IsForAnonymous = false → b.IsForAnonymous = true →
      pathPermissionLess a b = true ∧ pathPermissionLess b a = false) ∧
    (a.depth = b.depth → a.IsForUser = true → b.IsForAnonymous = false →
      b.IsForUser = false →
      pathPermissionLess a b = true ∧ pathPermissionLess b a = false) ∧
    (a.depth = b.depth → subjectRank a.subject = subjectRank b.subject →
      pathPermissionLess a b = decide (a.policy < b.policy)) := by
  rcases a with ⟨ap', ad, as, apol, _, _, _⟩
  rcases b with ⟨bp', bd, bs, bpol, _, _, _⟩
  refine ⟨fun h => ?_, fun h h1 h2 => ?_, fun h h1 h2 h3 => ?_, fun h h1 => ?_⟩ <;>
    cases as <;> cases bs <;>
      simp_all [pathPermissionLess, PathPermission.IsForAnonymous,
        PathPermission.IsForUser, subjectRank]

theorem c7_witness :
    pathPermissionLess ⟨"/a/b", 2, .user "u", 0, 1, true, false⟩
        ⟨"/a", 1, .anonymous, 0, 1, true, false⟩ = decide ((2 : Int) > 1) :=
  (c7_pathPermissionLess_order _ _).1 (by decide)

/-- C10: every capability bit of the resolved mask is set in the
permission of at least one input rule whose `IsAccept` holds; an input
with no Accept rules (the empty list included) yields `PermissionEmpty`. -/
theorem c10_provenance :
    (∀ (items : List PathPermission) (X : Nat),
        (ResolveAcceptedPermissions items).testBit X = true →
        ∃ r ∈ items, r.IsAccept = true ∧ r.permission.testBit X = true) ∧
    (∀ items : List PathPermission, (∀ r ∈ items, r.IsAccept = false) →
        ResolveAcceptedPermissions items = PermissionEmpty) := by
  constructor
  · intro items X h
    unfold ResolveAcceptedPermissions at h
    rcases foldl_acc_provenance _ _ X h with h0 | ⟨r, hr, h2, h3⟩
    · simp [PermissionEmpty] at h0
    · exact ⟨r, (List.perm_insertionSort PpLe items).subset hr, h2, h3⟩
  · intro items h
    unfold ResolveAcceptedPermissions
    apply foldl_acc_noaccept
    intro r hr
    exact h r ((List.perm_insertionSort PpLe items).subset hr)

theorem c10_witness :
    (∃ r ∈ [(⟨"/a", 1, .user "u", 0, 1, true, false⟩ : PathPermission)],
        r.IsAccept = true ∧ r.permission.testBit 0 = true) ∧
    ResolveAcceptedPermissions
        [⟨"/a", 1, .user "u", 0, 3, false, true⟩] = PermissionEmpty :=
  ⟨c10_provenance.1 [⟨"/a", 1, .user "u", 0, 1, true, false⟩] 0 (by decide),
   c10_provenance.2 [⟨"/a", 1, .user "u", 0, 3, false, true⟩] (by decide)⟩

/-- C1 counterexample: on the spec's own two-rule example the engine
returns READ|WRITE, not READ: the clearing step of the depth-1 reject is
a no-op on already-accepted bits, so the WRITE bit granted by the deeper
(earlier-sorted) accept survives. -/
theorem c1_counterexample :
    ResolveAcceptedPermissions
        [⟨"/a/b", 2, .anonymous, 0, PermissionRead ||| PermissionWrite, true, false⟩,
         ⟨"/a", 1, .user "u", 0, PermissionWrite, false, true⟩] ≠ PermissionRead ∧
    ResolveAcceptedPermissions
        [⟨"/a/b", 2, .anonymous, 0, PermissionRead ||| PermissionWrite, true, false⟩,
         ⟨"/a", 1, .user "u", 0, PermissionWrite, false, true⟩] =
      (PermissionRead ||| PermissionWrite) := by
  decide

/-- C1 (amended): once a rule at some position of the sorted fold rejects
capability bit X, the final mask contains X only if X was granted by an
Accept rule sorted strictly before that reject, or by that very rule when
it itself also carries Accept semantics.  (Rejects bar later grants but do
not clear earlier ones, so the spec example resolves to READ|WRITE.) -/
theorem c1_permanent_reject (items pre post : List PathPermission)
    (rej : PathPermission) (X : Nat)
    (hsort : sortPathPermissions items = pre ++ rej :: post)
    (hrej : rej.IsReject = true)
    (hbit : rej.permission.testBit X = true)
    (hres : (ResolveAcceptedPermissions items).testBit X = true) :
    ∃ r ∈ pre ++ [rej], r.IsAccept = true ∧ r.permission.testBit X = true := by
  unfold ResolveAcceptedPermissions at hres
  rw [hsort, List.foldl_append, List.foldl_cons] at hres
  have hs2rej :
      (resolveStep (pre.foldl resolveStep (PermissionEmpty, PermissionEmpty))
          rej).2.testBit X = true := by
    simp [resolveStep_snd, hrej, Nat.testBit_lor, hbit]
  rw [foldl_acc_frozen post _ X hs2rej] at hres
  rcases (resolveStep_acc_iff _ rej X).mp hres with h1 | ⟨ha, hb, _⟩
  · rcases foldl_acc_provenance pre _ X h1 with h0 | ⟨r, hr, h2, h3⟩
    · simp [PermissionEmpty] at h0
    · exact ⟨r, List.mem_append_left _ hr, h2, h3⟩
  · exact ⟨rej, List.mem_append_right _ (List.mem_cons_self rej []), ha, hb⟩

theorem c1_witness :
    ∃ r ∈ ([(⟨"/a/b", 2, .user "u", 0, 1, true, false⟩ : PathPermission)] ++
        [⟨"/a", 1, .user "v", 0, 1, false, true⟩]),
      r.IsAccept = true ∧ r.permission.testBit 0 = true :=
  c1_permanent_reject
    [⟨"/a/b", 2, .user "u", 0, 1, true, false⟩,
     ⟨"/a", 1, .user "v", 0, 1, false, true⟩]
    [⟨"/a/b", 2, .user "u", 0, 1, true, false⟩] []
    ⟨"/a", 1, .user "v", 0, 1, false, true⟩ 0
    (by decide) (by decide) (by decide) (by decide)

/-- C2 counterexample: two rules that tie on depth, subject class and
policy but differ in accept/reject semantics make the resolved mask
depend on the input order. -/
theorem c2_counterexample :
    List.Perm
        [(⟨"/x", 1, .anonymous, 5, 1, true, false⟩ : PathPermission),
         ⟨"/y", 1, .anonymous, 5, 1, false, true⟩]
        [⟨"/y", 1, .anonymous, 5, 1, false, true⟩,
         ⟨"/x", 1, .anonymous, 5, 1, true, false⟩] ∧
    ResolveAcceptedPermissions
        [⟨"/x", 1, .anonymous, 5, 1, true, false⟩,
         ⟨"/y", 1, .anonymous, 5, 1, false, true⟩] ≠
      ResolveAcceptedPermissions
        [⟨"/y", 1, .anonymous, 5, 1, false, true⟩,
         ⟨"/x", 1, .anonymous, 5, 1, true, false⟩] := by
  decide

/-- C2 (amended): the resolved mask is invariant under permutation of the
input rules provided no two distinct rules tie on all three sort keys
(depth, subject class, policy). -/
theorem c2_order_invariance (l₁ l₂ : List PathPermission)
    (hperm : l₁.Perm l₂)
    (hkeys : l₁.Pairwise fun a b => sortKey a ≠ sortKey b) :
    ResolveAcceptedPermissions l₁ = ResolveAcceptedPermissions l₂ := by
  have hsorteq : sortPathPermissions l₁ = sortPathPermissions l₂ := by
    apply sorted_perm_distinctKeys_eq
    · exact (List.perm_insertionSort PpLe l₁).trans
        (hperm.trans (List.perm_insertionSort PpLe l₂).symm)
    · exact List.sorted_insertionSort PpLe l₁
    · exact List.sorted_insertionSort PpLe l₂
    · exact (List.Perm.pairwise_iff (fun h => Ne.symm h)
        (List.perm_insertionSort PpLe l₁)).mpr hkeys
  unfold ResolveAcceptedPermissions
  rw [hsorteq]

theorem c2_witness :
    ResolveAcceptedPermissions
        [(⟨"/a", 2, .user "u", 0, 1, true, false⟩ : PathPermission),
         ⟨"/b", 1, .group "g", 3, 2, true, false⟩] =
      ResolveAcceptedPermissions
        [⟨"/b", 1, .group "g", 3, 2, true, false⟩,
         ⟨"/a", 2, .user "u", 0, 1, true, false⟩] :=
  c2_order_invariance _ _ (by decide) (by decide)

/-- C9 counterexample: `sort.Slice` sorts the caller's slice in place, so
after the call the caller's sequence is reordered. -/
theorem c9_counterexample :
    (ResolveAcceptedPermissionsRun
        [(⟨"/a", 1, .user "u", 0, 1, true, false⟩ : PathPermission),
         ⟨"/a/b", 2, .user "u", 0, 1, true, false⟩]).2 ≠
      [⟨"/a", 1, .user "u", 0, 1, true, false⟩,
       ⟨"/a/b", 2, .user "u", 0, 1, true, false⟩] := by
  decide

/-- C9 (amended): the only side effect of `ResolveAcceptedPermissions` is
reordering the caller's slice in place into the engine's sorted order:
the multiset of rules is preserved, and the returned mask is the
specified fold of the sorted sequence. -/
theorem c9_resolve_frame (items : List PathPermission) :
    ((ResolveAcceptedPermissionsRun items).2).Perm items ∧
    (ResolveAcceptedPermissionsRun items).1 = ResolveAcceptedPermissions items :=
  ⟨List.perm_insertionSort PpLe items, rfl⟩

/-! ## The cross-drive copy engine, from `src/common/drive_utils.go`

The destination drive is modelled as an in-memory map from destination
path to file, the canonical implementation of the `IDrive` operations the
engine uses: `Get` is a lookup whose only failure is not-found, `MakeDir`
and `Save` insert and always succeed.  The `task.Context` is modelled as
an explicit state carrying a poll counter into a fixed cancellation
stream (one poll per `Canceled()` call) and a trace of observable events:
progress reports, directory creations, saves, and callback invocations.
Staging a file (`CopyIContentToTempFile` followed by `Save`) is modelled
as one atomic successful transfer of the entry's content bytes; the
temporary file is not observable.  `ctxWrapper` makes the byte-level
progress of staging a no-op, so the only `Progress` calls in the trace
are the two in `copyAll` (lines 290 and 327). -/

namespace Copy

inductive EntryType where
  | file : EntryType
  | dir : EntryType
deriving DecidableEq, Repr

def EntryType.IsFile : EntryType → Bool
  | .file => true
  | .dir => false

def EntryType.IsDir : EntryType → Bool
  | .dir => true
  | .file => false

/-- A source entry as the copy engine sees it: path and name, type, and
optional content bytes (present exactly when the entry implements the
`IContent` capability). -/
structure Entry where
  path : String
  name : String
  type : EntryType
  content : Option (List Nat)
deriving DecidableEq, Repr

/-- The snapshot tree (`EntryNode`, drive_utils.go lines 206-209). -/
inductive EntryNode where
  | mk : Entry → List EntryNode → EntryNode

def EntryNode.entry : EntryNode → Entry
  | .mk e _ => e

def EntryNode.children : EntryNode → List EntryNode
  | .mk _ cs => cs

/-- A destination object: a directory or a file with content bytes. -/
structure DstFile where
  isDir : Bool
  bytes : List Nat
deriving DecidableEq, Repr

/-- The destination drive state: an association list keyed by path;
newer entries shadow older ones. -/
abbrev FS := List (String × DstFile)

def fsLookup : FS → String → Option DstFile
  | [], _ => none
  | (q, f) :: rest, p => if q = p then some f else fsLookup rest p

def fsSet (fs : FS) (p : String) (f : DstFile) : FS := (p, f) :: fs

/-- Error kinds the engine produces (section 7 of the spec); the
not-allowed errors carry the two paths their messages are built from. -/
inductive GoErr where
  | notFound : GoErr
  | canceled : GoErr
  | dirOverFile (dest src : String) : GoErr
  | fileOverDir (dest src : String) : GoErr
  | notReadable (src : String) : GoErr
  | remote (code : Nat) : GoErr
deriving DecidableEq, Repr

/-- Observable events of one copy operation, in order. -/
inductive TraceEv where
  | progress (n : Nat) : TraceEv
  | mkdir (dest : String) : TraceEv
  | save (dest : String) (bytes : List Nat) : TraceEv
  | callback (path : String) (allProcessed : Bool) : TraceEv
deriving DecidableEq, Repr

/-- The mutable part of the `task.Context`: how many times `Canceled()`
has been polled, and the trace so far. -/
structure TaskState where
  tick : Nat
  events : List TraceEv
deriving DecidableEq, Repr

def TaskState.emit (ts : TaskState) (e : TraceEv) : TaskState :=
  { ts with events := ts.events ++ [e] }

def TaskState.poll (ts : TaskState) : TaskState := { ts with tick := ts.tick + 1 }

/-- The caller-supplied callback: receives the entry and the
fully-processed flag (the progress handle it also receives is the no-op
`ctxWrapper` and carries no information). -/
abbrev Callback := Entry → Bool → Option GoErr

/-- What one (recursive) `copyAll` call returns, together with the
destination and context state after it. -/
structure CopyResult where
  processed : Nat
  allProcessed : Bool
  err : Option GoErr
  fs : FS
  ts : TaskState

/-- Model of `CleanPath` for the already-clean paths the engine builds. -/
def CleanPath (s : String) : String := s

/-- Model of `path.Join` on clean separator-free segments. -/
def joinPath (dest name : String) : String := dest ++ "/" ++ name

/-- The common tail of `copyAll` (drive_utils.go lines 323-328): invoke
the callback, then count this node and report progress. -/
def finishNode (entry : Entry) (processed : Nat) (allP : Bool)
    (fs : FS) (ts : TaskState) (cb : Callback) : CopyResult :=
  let ts := ts.emit (.callback entry.path allP)
  match cb entry allP with
  | some e => ⟨processed, false, some e, fs, ts⟩
  | none =>
    let processed := processed + 1
    let ts := ts.emit (.progress processed)
    ⟨processed, allP, none, fs, ts⟩

/-- The file-saving step (drive_utils.go lines 309-321 followed by the
common tail): stage the content and `Save` it, then finish the node.  A
source entry without content is the failed `IContent` cast. -/
def saveFile (entry : Entry) (fs : FS) (dest : String) (ts : TaskState)
    (cb : Callback) : CopyResult :=
  match entry.content with
  | none => ⟨0, false, some (.notReadable entry.path), fs, ts⟩
  | some bytes =>
    let fs := fsSet fs dest ⟨false, bytes⟩
    let ts := ts.emit (.save dest bytes)
    finishNode entry 0 true fs ts cb

mutual

/-- Embedding of `copyAll` (drive_utils.go lines 247-329).  `cseq` is the
cancellation stream polled by `ctx.Canceled()`. -/
def copyAll (node : EntryNode) (fs : FS) (dest : String) (override : Bool)
    (cseq : Nat → Bool) (ts : TaskState) (newParent : Bool) (cb : Callback) :
    CopyResult :=
  match node with
  | .mk entry children =>
    if cseq ts.tick then ⟨0, false, some .canceled, fs, ts.poll⟩
    else
      let ts := ts.poll
      -- destination probe; skipped when the parent was freshly created
      let dst : Option DstFile := if newParent then none else fsLookup fs dest
      if entry.type.IsDir then
        match dst with
        | some d =>
          if d.isDir then
            -- destination dir exists already: children keep probing
            let r := copyChildren children fs dest override cseq ts false cb 0 true
            if r.err.isSome then r
            else finishNode entry r.processed r.allProcessed r.fs r.ts cb
          else ⟨0, false, some (.dirOverFile dest entry.path), fs, ts⟩
        | none =>
          let fs := fsSet fs dest ⟨true, []⟩
          let ts := ts.emit (.mkdir dest)
          let r := copyChildren children fs dest override cseq ts true cb 0 true
          if r.err.isSome then r
          else finishNode entry r.processed r.allProcessed r.fs r.ts cb
      else
        -- file node
        match dst with
        | some d =>
          if d.isDir then ⟨0, false, some (.fileOverDir dest entry.path), fs, ts⟩
          else if override then saveFile entry fs dest ts cb
          else
            -- skip: an existing destination file with override=false
            ⟨0 + 1, false, none, fs, ts⟩
        | none => saveFile entry fs dest ts cb
termination_by sizeOf node

/-- The child loop of `copyAll` (drive_utils.go lines 283-295): it
accumulates the processed count, reports progress after each child, and
aborts on the first child error. -/
def copyChildren (cs : List EntryNode) (fs : FS) (dest : String)
    (override : Bool) (cseq : Nat → Bool) (ts : TaskState) (dirCreate : Bool)
    (cb : Callback) (processed : Nat) (allP : Bool) : CopyResult :=
  match cs with
  | [] => ⟨processed, allP, none, fs, ts⟩
  | c :: rest =>
    let r := copyAll c fs (CleanPath (joinPath dest c.entry.name)) override cseq ts dirCreate cb
    match r.err with
    | some e => ⟨processed, false, some e, r.fs, r.ts⟩
    | none =>
      let processed := processed + r.processed
      let ts := r.ts.emit (.progress processed)
      copyChildren rest r.fs dest override cseq ts dirCreate cb processed
        (allP && r.allProcessed)
termination_by sizeOf cs

end

/-- The phase-2 invocation made by `CopyAll` (drive_utils.go line 339):
root call with `newParent = false` and a fresh context state. -/
def CopyAllFromTree (tree : EntryNode) (fs : FS) (dest : String)
    (override : Bool) (cseq : Nat → Bool) (cb : Callback) : CopyResult :=
  copyAll tree fs dest override cseq ⟨0, []⟩ false cb

/-- The counts passed to `ctx.Progress`, in order. -/
def progressEvents : List TraceEv → List Nat
  | [] => []
  | .progress n :: r => n :: progressEvents r
  | _ :: r => progressEvents r

/-- The callback invocations, in order: entry path and the
fully-processed flag it was invoked with. -/
def callbackEvents : List TraceEv → List (String × Bool)
  | [] => []
  | .callback p b :: r => (p, b) :: callbackEvents r
  | _ :: r => callbackEvents r

/-- The destination paths written by `Save`, in order. -/
def saveEvents : List TraceEv → List String
  | [] => []
  | .save p _ :: r => p :: saveEvents r
  | _ :: r => saveEvents r

mutual

/-- Source paths of the tree in the order nodes complete (children in
listed order, then the node itself). -/
def postorderPaths : EntryNode → List String
  | .mk e cs => postorderPathsList cs ++ [e.path]
termination_by n => sizeOf n

def postorderPathsList : List EntryNode → List String
  | [] => []
  | c :: rest => postorderPaths c ++ postorderPathsList rest
termination_by cs => sizeOf cs

end

mutual

/-- Every file node of the tree carries content (implements `IContent`). -/
def allReadable : EntryNode → Bool
  | .mk e cs => (if e.type.IsFile then e.content.isSome else true) && allReadableList cs
termination_by n => sizeOf n

def allReadableList : List EntryNode → Bool
  | [] => true
  | c :: rest => allReadable c && allReadableList rest
termination_by cs => sizeOf cs

end

mutual

/-- Trees as `BuildEntriesTree` produces them: file nodes carry no
children (drive_utils.go lines 217-219 return before listing). -/
def filesFlat : EntryNode → Bool
  | .mk e cs => (if e.type.IsFile then cs.isEmpty else true) && filesFlatList cs
termination_by n => sizeOf n

def filesFlatList : List EntryNode → Bool
  | [] => true
  | c :: rest => filesFlat c && filesFlatList rest
termination_by cs => sizeOf cs

end

/-! ## Facts about the copy engine -/

theorem callbackEvents_append (l₁ l₂ : List TraceEv) :
    callbackEvents (l₁ ++ l₂) = callbackEvents l₁ ++ callbackEvents l₂ := by
  induction l₁ with
  | nil => rfl
  | cons a l ih => cases a <;> simp [callbackEvents, ih]

theorem TaskState.poll_events (ts : TaskState) :
    (TaskState.poll ts).events = ts.events := rfl

theorem callbackEvents_emit_progress (ts : TaskState) (n : Nat) :
    callbackEvents (ts.emit (.progress n)).events = callbackEvents ts.events := by
  simp [TaskState.emit, callbackEvents_append, callbackEvents]

theorem callbackEvents_emit_mkdir (ts : TaskState) (d : String) :
    callbackEvents (ts.emit (.mkdir d)).events = callbackEvents ts.events := by
  simp [TaskState.emit, callbackEvents_append, callbackEvents]

theorem callbackEvents_emit_save (ts : TaskState) (d : String) (bs : List Nat) :
    callbackEvents (ts.emit (.save d bs)).events = callbackEvents ts.events := by
  simp [TaskState.emit, callbackEvents_append, callbackEvents]

theorem callbackEvents_emit_callback (ts : TaskState) (p : String) (b : Bool) :
    callbackEvents (ts.emit (.callback p b)).events =
      callbackEvents ts.events ++ [(p, b)] := by
  simp [TaskState.emit, callbackEvents_append, callbackEvents]

theorem finishNode_ok (entry : Entry) (processed : Nat) (aP : Bool)
    (fs : FS) (ts : TaskState) (cb : Callback) (hcb : cb entry aP = none) :
    finishNode entry processed aP fs ts cb =
      ⟨processed + 1, aP, none, fs,
        (ts.emit (.callback entry.path aP)).emit (.progress (processed + 1))⟩ := by
  unfold finishNode
  simp [hcb]

theorem finishNode_err (entry : Entry) (processed : Nat) (aP : Bool)
    (fs : FS) (ts : TaskState) (cb : Callback) (e : GoErr)
    (hcb : cb entry aP = some e) :
    finishNode entry processed aP fs ts cb =
      ⟨processed, false, some e, fs, ts.emit (.callback entry.path aP)⟩ := by
  unfold finishNode
  simp [hcb]

mutual

/-- With `override = true`, a run of `copyAll` that returns no error has
invoked the callback exactly once per tree node, in completion
(post-)order, always with the fully-processed flag `true`, and reports
itself fully processed. -/
theorem copyAll_ok_callbacks (entry : Entry) (children : List EntryNode)
    (fs : FS) (dest : String)
    (cseq : Nat → Bool) (ts : TaskState) (np : Bool) (cb : Callback)
    (hwf : filesFlat (.mk entry children) = true)
    (h : (copyAll (.mk entry children) fs dest true cseq ts np cb).err = none) :
    callbackEvents (copyAll (.mk entry children) fs dest true cseq ts np cb).ts.events =
      callbackEvents ts.events ++
        (postorderPaths (.mk entry children)).map (fun p => (p, true)) ∧
    (copyAll (.mk entry children) fs dest true cseq ts np cb).allProcessed = true := by
  by_cases hc : cseq ts.tick = true
  · rw [copyAll] at h
    simp [hc] at h
  · rw [copyAll] at h ⊢
    simp only [hc, Bool.false_eq_true, if_false] at h ⊢
    cases htype : entry.type with
    | dir =>
      simp only [htype, EntryType.IsDir, if_true] at h ⊢
      have hwfl : filesFlatList children = true := by
        rw [filesFlat] at hwf
        simp [htype, EntryType.IsFile] at hwf
        exact hwf
      cases hdst : (if np then none else fsLookup fs dest) with
      | some d =>
        simp only [hdst] at h ⊢
        cases hd : d.isDir with
        | false => simp [hd] at h
        | true =>
          simp only [hd, if_true] at h ⊢
          cases herr : (copyChildren children fs dest true cseq ts.poll false cb 0 true).err with
          | some e2 => simp [herr, Option.isSome] at h
          | none =>
            have hch := copyChildren_ok_callbacks children fs dest cseq ts.poll false cb 0 true hwfl herr
            have hsome : (copyChildren children fs dest true cseq ts.poll false cb 0 true).err.isSome = false := by
              rw [herr]
              rfl
            simp only [hsome, Bool.false_eq_true, if_false] at h ⊢
            cases hcbr : cb entry
                (copyChildren children fs dest true cseq ts.poll false cb 0 true).allProcessed with
            | some e3 =>
              rw [finishNode_err _ _ _ _ _ _ _ hcbr] at h
              simp at h
            | none =>
              rw [finishNode_ok _ _ _ _ _ _ hcbr] at h ⊢
              constructor
              · simp [callbackEvents_emit_progress, callbackEvents_emit_callback,
                  hch.1, hch.2, postorderPaths, TaskState.poll_events]
              · simpa using hch.2
      | none =>
        simp only [hdst] at h ⊢
        cases herr : (copyChildren children (fsSet fs dest ⟨true, []⟩) dest true cseq
            ((ts.poll).emit (.mkdir dest)) true cb 0 true).err with
        | some e2 => simp [herr, Option.isSome] at h
        | none =>
          have hch := copyChildren_ok_callbacks children (fsSet fs dest ⟨true, []⟩) dest cseq
            ((ts.poll).emit (.mkdir dest)) true cb 0 true hwfl herr
          have hsome : (copyChildren children (fsSet fs dest ⟨true, []⟩) dest true cseq
              ((ts.poll).emit (.mkdir dest)) true cb 0 true).err.isSome = false := by
            rw [herr]
            rfl
          simp only [hsome, Bool.false_eq_true, if_false] at h ⊢
          cases hcbr : cb entry
              (copyChildren children (fsSet fs dest ⟨true, []⟩) dest true cseq
                ((ts.poll).emit (.mkdir dest)) true cb 0 true).allProcessed with
          | some e3 =>
            rw [finishNode_err _ _ _ _ _ _ _ hcbr] at h
            simp at h
          | none =>
            rw [finishNode_ok _ _ _ _ _ _ hcbr] at h ⊢
            constructor
            · simp [callbackEvents_emit_progress, callbackEvents_emit_callback,
                callbackEvents_emit_mkdir, hch.1, hch.2, postorderPaths,
                TaskState.poll_events]
            · simpa using hch.2
    | file =>
      simp only [htype, EntryType.IsDir, Bool.false_eq_true, if_false] at h ⊢
      have hnil : children = [] := by
        rw [filesFlat] at hwf
        simp [htype, EntryType.IsFile] at hwf
        simpa using hwf.1
      subst hnil
      have hsave : ∀ ts2 : TaskState,
          (saveFile entry fs dest ts2 cb).err = none →
          callbackEvents (saveFile entry fs dest ts2 cb).ts.events =
            callbackEvents ts2.events ++
              (postorderPaths (.mk entry [])).map (fun p => (p, true)) ∧
          (saveFile entry fs dest ts2 cb).allProcessed = true := by
        intro ts2 h2
        unfold saveFile at h2 ⊢
        cases hcont : entry.content with
        | none => simp [hcont] at h2
        | some bytes =>
          simp only [hcont] at h2 ⊢
          cases hcbr : cb entry true with
          | some e3 =>
            rw [finishNode_err _ _ _ _ _ _ _ hcbr] at h2
            simp at h2
          | none =>
            rw [finishNode_ok _ _ _ _ _ _ hcbr]
            constructor
            · simp [callbackEvents_emit_progress, callbackEvents_emit_callback,
                callbackEvents_emit_save, postorderPaths, postorderPathsList]
            · rfl
      cases hdst : (if np then none else fsLookup fs dest) with
      | some d =>
        simp only [hdst] at h ⊢
        cases hd : d.isDir with
        | true => simp [hd] at h
        | false =>
          simp only [hd, Bool.false_eq_true, if_false, if_true] at h ⊢
          have := hsave (ts.poll) h
          simpa [TaskState.poll] using this
      | none =>
        simp only [hdst] at h ⊢
        have := hsave (ts.poll) h
        simpa [TaskState.poll] using this
termination_by sizeOf (EntryNode.mk entry children)

/-- The child-loop version of `copyAll_ok_callbacks`. -/
theorem copyChildren_ok_callbacks :
    ∀ (cs : List EntryNode) (fs : FS) (dest : String) (cseq : Nat → Bool)
      (ts : TaskState) (dc : Bool) (cb : Callback) (processed : Nat) (aP : Bool),
      filesFlatList cs = true →
      (copyChildren cs fs dest true cseq ts dc cb processed aP).err = none →
      callbackEvents (copyChildren cs fs dest true cseq ts dc cb processed aP).ts.events =
        callbackEvents ts.events ++ (postorderPathsList cs).map (fun p => (p, true)) ∧
      (copyChildren cs fs dest true cseq ts dc cb processed aP).allProcessed = aP
  | [], fs, dest, cseq, ts, dc, cb, processed, aP, _, _ => by
    simp [copyChildren, postorderPathsList]
  | .mk ce ccs :: rest, fs, dest, cseq, ts, dc, cb, processed, aP, hwf, h => by
    have hwf1 : filesFlat (EntryNode.mk ce ccs) = true ∧ filesFlatList rest = true := by
      rw [filesFlatList] at hwf
      simpa using hwf
    rw [copyChildren] at h ⊢
    set r := copyAll (EntryNode.mk ce ccs) fs
      (CleanPath (joinPath dest (EntryNode.mk ce ccs).entry.name)) true cseq ts dc cb with hre
    cases herr : r.err with
    | some e => simp [herr] at h
    | none =>
      have hone := copyAll_ok_callbacks ce ccs fs
        (CleanPath (joinPath dest (EntryNode.mk ce ccs).entry.name)) cseq ts dc cb hwf1.1
        (by rw [← hre]; exact herr)
      rw [← hre] at hone
      simp only [herr] at h ⊢
      have hrest := copyChildren_ok_callbacks rest r.fs dest cseq
        (r.ts.emit (.progress (processed + r.processed))) dc cb
        (processed + r.processed) (aP && r.allProcessed) hwf1.2 h
      constructor
      · rw [hrest.1, callbackEvents_emit_progress, hone.1]
        simp [postorderPathsList]
      · rw [hrest.2, hone.2]
        simp
termination_by cs => sizeOf cs

end

theorem saveFile_cbfail (entry : Entry) (fs : FS) (dest : String)
    (ts : TaskState) (e : GoErr) (hcont : entry.content.isSome = true) :
    (saveFile entry fs dest ts (fun _ _ => some e)).err = some e ∧
    callbackEvents (saveFile entry fs dest ts (fun _ _ => some e)).ts.events =
      callbackEvents ts.events ++ [(entry.path, true)] := by
  unfold saveFile
  cases hcont2 : entry.content with
  | none => rw [hcont2] at hcont; simp at hcont
  | some bytes =>
    simp only [hcont2]
    rw [finishNode_err _ _ _ _ _ _ e rfl]
    constructor
    · rfl
    · simp [callbackEvents_emit_callback, callbackEvents_emit_save]

mutual

/-- When the callback always fails with `e`, a run over a tree whose
files are all readable, with no cancellation and a non-existing
destination, stops at the very first completed node: it returns `e` and
the callback has been invoked exactly once. -/
theorem copyAll_cbfail (entry : Entry) (children : List EntryNode)
    (fs : FS) (dest : String) (cseq : Nat → Bool) (ts : TaskState)
    (np : Bool) (e : GoErr)
    (hr : allReadable (.mk entry children) = true)
    (hcs : ∀ i, cseq i = false)
    (hdst : (if np then none else fsLookup fs dest) = (none : Option DstFile)) :
    (copyAll (.mk entry children) fs dest true cseq ts np (fun _ _ => some e)).err = some e ∧
    (callbackEvents
        (copyAll (.mk entry children) fs dest true cseq ts np (fun _ _ => some e)).ts.events).length =
      (callbackEvents ts.events).length + 1 := by
  rw [copyAll]
  simp only [hcs ts.tick, Bool.false_eq_true, if_false, hdst]
  cases htype : entry.type with
  | dir =>
    simp only [EntryType.IsDir, if_true]
    have hrl : allReadableList children = true := by
      rw [allReadable] at hr
      simp [htype, EntryType.IsFile] at hr
      exact hr
    rcases copyChildren_cbfail children (fsSet fs dest ⟨true, []⟩) dest cseq
        ((ts.poll).emit (.mkdir dest)) e 0 true hrl hcs with ⟨hnil, hres⟩ | ⟨herr, hlen⟩
    · rw [hres]
      simp only [Option.isSome_none, Bool.false_eq_true, if_false]
      rw [finishNode_err _ _ _ _ _ _ e rfl]
      constructor
      · rfl
      · simp [callbackEvents_emit_callback, callbackEvents_emit_mkdir,
          TaskState.poll_events]
    · have hsome : (copyChildren children (fsSet fs dest ⟨true, []⟩) dest true cseq
          ((ts.poll).emit (.mkdir dest)) true (fun _ _ => some e) 0 true).err.isSome = true := by
        rw [herr]
        rfl
      simp only [hsome, if_true]
      refine ⟨herr, ?_⟩
      rw [hlen]
      simp [callbackEvents_emit_mkdir, TaskState.poll_events]
  | file =>
    simp only [EntryType.IsDir, Bool.false_eq_true, if_false]
    have hcont : entry.content.isSome = true := by
      rw [allReadable] at hr
      simp [htype, EntryType.IsFile] at hr
      exact hr.1
    have := saveFile_cbfail entry fs dest (ts.poll) e hcont
    refine ⟨this.1, ?_⟩
    rw [this.2]
    simp [TaskState.poll_events]
termination_by sizeOf (EntryNode.mk entry children)

/-- The child-loop version of `copyAll_cbfail`: a non-empty child list
propagates the failure of its first child; an empty one returns
unchanged. -/
theorem copyChildren_cbfail :
    ∀ (cs : List EntryNode) (fs : FS) (dest : String) (cseq : Nat → Bool)
      (ts : TaskState) (e : GoErr) (processed : Nat) (aP : Bool),
      allReadableList cs = true →
      (∀ i, cseq i = false) →
      (cs = [] ∧
        copyChildren cs fs dest true cseq ts true (fun _ _ => some e) processed aP =
          ⟨processed, aP, none, fs, ts⟩) ∨
      ((copyChildren cs fs dest true cseq ts true (fun _ _ => some e) processed aP).err = some e ∧
        (callbackEvents
            (copyChildren cs fs dest true cseq ts true (fun _ _ => some e) processed aP).ts.events).length =
          (callbackEvents ts.events).length + 1)
  | [], fs, dest, cseq, ts, e, processed, aP, _, _ => by
    left
    exact ⟨rfl, by rw [copyChildren]⟩
  | .mk ce ccs :: rest, fs, dest, cseq, ts, e, processed, aP, hr, hcs => by
    right
    have hr1 : allReadable (EntryNode.mk ce ccs) = true := by
      rw [allReadableList] at hr
      simp only [Bool.and_eq_true] at hr
      exact hr.1
    have hone := copyAll_cbfail ce ccs fs
      (CleanPath (joinPath dest (EntryNode.mk ce ccs).entry.name)) cseq ts true e hr1 hcs rfl
    rw [copyChildren]
    rw [hone.1]
    exact ⟨rfl, hone.2⟩
termination_by cs => sizeOf cs

end

/-! ## Claims about the copy engine -/

/-- C3: at the failing input (a root directory holding a subdirectory
with one file, then a second file; empty destination) the counts passed
to Progress over the whole recursion are 1,1,2,2,1,3,4 - not
monotonically non-decreasing, because every recursive call reports its
own local count. -/
theorem c3_progress_not_monotonic :
    progressEvents (CopyAllFromTree
        (.mk ⟨"r", "r", .dir, none⟩
          [.mk ⟨"r/a", "a", .dir, none⟩ [.mk ⟨"r/a/f1", "f1", .file, some [1]⟩ []],
           .mk ⟨"r/f2", "f2", .file, some [2]⟩ []])
        [] "dst" true (fun _ => false) (fun _ _ => none)).ts.events =
      [1, 1, 2, 2, 1, 3, 4] ∧
    ¬ List.Sorted (fun a b : Nat => a ≤ b) [1, 1, 2, 2, 1, 3, 4] := by
  constructor
  · simp [CopyAllFromTree, copyAll, copyChildren, saveFile, finishNode, TaskState.emit,
      TaskState.poll, fsLookup, fsSet, progressEvents, CleanPath, joinPath,
      EntryNode.entry, EntryType.IsDir, EntryType.IsFile]
  · decide

/-- C4 counterexample: a file node whose destination already exists with
override=false is deliberately skipped, and the caller-supplied callback
is NOT invoked for it, although the node counts as processed and the call
succeeds. -/
theorem c4_counterexample :
    callbackEvents (copyAll (.mk ⟨"s/f", "f", .file, some [9]⟩ [])
        [("d", ⟨false, [7]⟩)] "d" false (fun _ => false) ⟨0, []⟩ false
        (fun _ _ => none)).ts.events = [] ∧
    (copyAll (.mk ⟨"s/f", "f", .file, some [9]⟩ [])
        [("d", ⟨false, [7]⟩)] "d" false (fun _ => false) ⟨0, []⟩ false
        (fun _ _ => none)).processed = 1 ∧
    (copyAll (.mk ⟨"s/f", "f", .file, some [9]⟩ [])
        [("d", ⟨false, [7]⟩)] "d" false (fun _ => false) ⟨0, []⟩ false
        (fun _ _ => none)).err = none := by
  refine ⟨?_, ?_, ?_⟩ <;>
    simp [copyAll, fsLookup, TaskState.poll, callbackEvents, EntryType.IsDir]

/-- C4 (amended): the callback is invoked for every node that is handled
and not deliberately skipped.  In particular, a no-error run with
override=true invokes it exactly once per node in completion order with
the fully-processed flag true, and a callback returning an error aborts
the operation after that single invocation. -/
theorem c4_callback_contract :
    (∀ (n : EntryNode) (fs : FS) (dest : String) (cseq : Nat → Bool)
        (cb : Callback),
        filesFlat n = true →
        (CopyAllFromTree n fs dest true cseq cb).err = none →
        callbackEvents (CopyAllFromTree n fs dest true cseq cb).ts.events =
          (postorderPaths n).map (fun p => (p, true)) ∧
        (CopyAllFromTree n fs dest true cseq cb).allProcessed = true) ∧
    (∀ (n : EntryNode) (fs : FS) (dest : String) (cseq : Nat → Bool) (e : GoErr),
        allReadable n = true → (∀ i, cseq i = false) →
        fsLookup fs dest = none →
        (CopyAllFromTree n fs dest true cseq (fun _ _ => some e)).err = some e ∧
        (callbackEvents
            (CopyAllFromTree n fs dest true cseq (fun _ _ => some e)).ts.events).length = 1) := by
  constructor
  · intro n fs dest cseq cb hwf h
    obtain ⟨entry, children⟩ := n
    rw [CopyAllFromTree] at h ⊢
    have := copyAll_ok_callbacks entry children fs dest cseq ⟨0, []⟩ false cb hwf h
    simpa [callbackEvents] using this
  · intro n fs dest cseq e hr hcs hfs
    obtain ⟨entry, children⟩ := n
    rw [CopyAllFromTree]
    have := copyAll_cbfail entry children fs dest cseq ⟨0, []⟩ false e hr hcs
      (by simp [hfs])
    simpa [callbackEvents] using this

theorem c4_witness :
    callbackEvents (CopyAllFromTree (.mk ⟨"s/f", "f", .file, some [9]⟩ []) [] "d" true
        (fun _ => false) (fun _ _ => none)).ts.events =
      (postorderPaths (.mk ⟨"s/f", "f", .file, some [9]⟩ [])).map (fun p => (p, true)) ∧
    (CopyAllFromTree (.mk ⟨"s/f", "f", .file, some [9]⟩ []) [] "d" true
        (fun _ => false) (fun _ _ => some GoErr.notFound)).err = some .notFound :=
  ⟨(c4_callback_contract.1 (.mk ⟨"s/f", "f", .file, some [9]⟩ []) [] "d"
      (fun _ => false) (fun _ _ => none)
      (by simp [filesFlat, filesFlatList, EntryType.IsFile])
      (by simp [CopyAllFromTree, copyAll, saveFile, finishNode, fsLookup,
        TaskState.poll, TaskState.emit, EntryType.IsDir])).1,
   (c4_callback_contract.2 (.mk ⟨"s/f", "f", .file, some [9]⟩ []) [] "d"
      (fun _ => false) .notFound
      (by simp [allReadable, allReadableList, EntryType.IsFile])
      (fun _ => rfl) rfl).1⟩

/-- C8: a file node whose destination exists as a file, with
override=false, is skipped: the call returns success with the
fully-processed flag false, the node counts as one processed item, no
Save happens, no event at all is emitted, and the destination state is
unchanged. -/
theorem c8_skip_not_error (entry : Entry) (cs : List EntryNode) (fs : FS)
    (dest : String) (cseq : Nat → Bool) (ts : TaskState) (cb : Callback)
    (df : DstFile)
    (hfile : entry.type = .file)
    (hc : cseq ts.tick = false)
    (hdst : fsLookup fs dest = some df)
    (hnd : df.isDir = false) :
    copyAll (.mk entry cs) fs dest false cseq ts false cb =
      ⟨1, false, none, fs, ts.poll⟩ := by
  rw [copyAll]
  simp [hc, hfile, hdst, hnd, EntryType.IsDir]

theorem c8_witness :
    copyAll (.mk ⟨"s/f", "f", .file, some [9]⟩ []) [("d", ⟨false, [7]⟩)] "d" false
        (fun _ => false) ⟨0, []⟩ false (fun _ _ => none) =
      ⟨1, false, none, [("d", ⟨false, [7]⟩)], ⟨1, []⟩⟩ :=
  c8_skip_not_error _ _ _ _ _ _ _ _ rfl rfl rfl rfl

end Copy

/-! ## The local-filesystem drive (C5)

Paths are modelled as lists of segments of canonical absolute paths:
`filepath.Clean` is the identity on them and `filepath.Join` is list
append (for both a relative and an absolute second argument, Go's `Join`
concatenates the cleaned segment sequences).  The OS filesystem is an
association list from absolute path segments to file metadata. -/

deriving instance DecidableEq for Except

namespace Fs

structure FInfo where
  isDir : Bool
  size : Int
  modTime : Int
deriving DecidableEq, Repr

abbrev FileSystem := List (List String × FInfo)

def stat : FileSystem → List String → Option FInfo
  | [], _ => none
  | (q, i) :: rest, p => if q = p then some i else stat rest p

/-- Model of `utils.FileExists`. -/
def FileExists (fs : FileSystem) (p : List String) : Bool := (stat fs p).isSome

/-- The `fs` drive: its root path (`FsDrive.path` in the source). -/
structure FsDrive where
  path : List String
deriving DecidableEq, Repr

/-- Model of `FsDrive.getPath`: `filepath.Join(f.path, filepath.Clean(p))`. -/
def FsDrive.getPath (f : FsDrive) (p : List String) : List String := f.path ++ p

/-- The entry the drive manufactures (`fsFile`). -/
structure FsFile where
  path : List String
  size : Int
  isDir : Bool
  modTime : Int
deriving DecidableEq, Repr

/-- Error kinds of the drive; `invalidKey` stands for the Go panic in
`newFsFile` when the stat path is not under the root. -/
inductive FsErr where
  | notFound : FsErr
  | invalidKey : FsErr
deriving DecidableEq, Repr

/-- Model of `FsDrive.newFsFile`: checks the root is a path prefix,
strips it, and snapshots the file info. -/
def newFsFile (f : FsDrive) (p : List String) (info : FInfo) :
    Except FsErr FsFile :=
  if f.path.isPrefixOf p then
    .ok ⟨p.drop f.path.length, info.size, info.isDir, info.modTime⟩
  else
    .error .invalidKey

/-- Model of `FsDrive.Get` (part_000 lines 98-108): prefix the root, stat,
not-found on absence. -/
def FsDrive.Get (f : FsDrive) (fs : FileSystem) (p : List String) :
    Except FsErr FsFile :=
  let fp := f.getPath p
  match stat fs fp with
  | none => .error .notFound
  | some info => newFsFile f fp info

/-- Model of `FsDrive.MakeDir` (part_000 lines 133-146).  When the target
already exists it delegates to `Get`, passing the ALREADY root-prefixed
path (`return f.Get(ctx, path)` after `path = f.getPath(path)`), exactly
as the source does; otherwise it creates the directory and stats it. -/
def FsDrive.MakeDir (f : FsDrive) (fs : FileSystem) (p : List String) :
    Except FsErr (FsFile × FileSystem) :=
  let fp := f.getPath p
  if FileExists fs fp then
    (f.Get fs fp).map (fun e => (e, fs))
  else
    let fs2 := (fp, (⟨true, 0, 0⟩ : FInfo)) :: fs
    match stat fs2 fp with
    | none => .error .notFound
    | some info => (newFsFile f fp info).map (fun e => (e, fs2))

/-- C5: at root `/data` with an existing directory `/data/a`,
`MakeDir("a")` does not return the existing entry: the existing-path
branch hands the already-prefixed path `/data/a` back to `Get`, which
prefixes again and stats `/data/data/a`, so the call fails with NotFound
even though `Get("a")` finds the entry. -/
theorem c5_makedir_existing_notfound :
    FsDrive.MakeDir ⟨["data"]⟩
        [(["data"], ⟨true, 0, 0⟩), (["data", "a"], ⟨true, 0, 0⟩)] ["a"] =
      .error .notFound ∧
    FsDrive.Get ⟨["data"]⟩
        [(["data"], ⟨true, 0, 0⟩), (["data", "a"], ⟨true, 0, 0⟩)] ["a"] =
      .ok ⟨["a"], 0, true, 0⟩ := by
  decide

end Fs

/-! ## Content delivery (C6)

The `http.ResponseWriter` contract is modelled after its documentation:
`WriteHeader` sends the status code together with a snapshot of the
current header map, and changing the header map after the call has no
effect on what was sent.  Reverse-proxy and `http.ServeContent`
deliveries are delegated to the standard library and recorded as such;
no body bytes pass through this layer for them. -/

namespace Http

abbrev Header := List (String × String)

def headerSet (h : Header) (k v : String) : Header :=
  (k, v) :: h.filter (fun kv => kv.1 ≠ k)

def headerGet : Header → String → Option String
  | [], _ => none
  | (k2, v) :: rest, k => if k2 = k then some v else headerGet rest k

structure RespWriter where
  pending : Header
  status : Option Nat
  sent : Header
  body : List Nat
  proxied : Option String
  served : Bool
deriving DecidableEq, Repr

def emptyWriter : RespWriter := ⟨[], none, [], [], none, false⟩

/-- Model of `w.Header().Set(k, v)`: mutates the pending header map. -/
def RespWriter.setHeader (w : RespWriter) (k v : String) : RespWriter :=
  { w with pending := headerSet w.pending k v }

/-- Model of `w.WriteHeader(code)`: the first call flushes the status and
a snapshot of the pending headers; later header changes are not sent. -/
def RespWriter.writeHeader (w : RespWriter) (code : Nat) : RespWriter :=
  if w.status.isSome then w
  else { w with status := some code, sent := w.pending }

/-- Model of writing body bytes (an implicit `WriteHeader(200)` first). -/
def RespWriter.write (w : RespWriter) (bs : List Nat) : RespWriter :=
  let w :=
    if w.status.isSome then w
    else { w with status := some 200, sent := w.pending }
  { w with body := w.body ++ bs }

structure HReader where
  bytes : List Nat
  seekable : Bool
deriving DecidableEq, Repr

inductive HErr where
  | unsupported : HErr
  | ioErr : HErr
deriving DecidableEq, Repr

/-- The `types.IContent` capability as `DownloadIContent` consumes it:
`GetURL` yields a URL and its must-proxy flag or an error, `GetReader`
yields a byte stream that may or may not support seeking. -/
structure HContent where
  url : Except HErr (String × Bool)
  reader : Except HErr HReader
  name : String
  size : Int
  updatedAt : Int
deriving DecidableEq, Repr

/-- Embedding of `DownloadIContent` (drive_utils.go lines 149-188),
branch for branch: URL with proxy goes through the reverse proxy; URL
without proxy does `w.WriteHeader(302)` and only then
`w.Header().Set("Location", url)`, returning the nil error from
`GetURL`; otherwise the reader is delivered via `http.ServeContent` when
seekable, else streamed with an explicit Content-Length. -/
def DownloadIContent (content : HContent) (w : RespWriter) :
    RespWriter × Option HErr :=
  match content.url with
  | .ok (url, proxy) =>
    if proxy then
      ({ w with proxied := some url }, none)
    else
      let w := w.writeHeader 302
      let w := w.setHeader "Location" url
      (w, none)
  | .error _ =>
    match content.reader with
    | .error e => (w, some e)
    | .ok r =>
      if r.seekable then
        ({ w with served := true }, none)
      else
        let w := w.setHeader "Content-Length" (toString content.size)
        let w := w.write r.bytes
        (w, none)

/-- C6: for an entry with a direct non-proxy URL the function responds
with status 302 and nil error and writes no body, but the Location header
is set only AFTER WriteHeader flushed the headers, so the sent response
carries no Location header at all. -/
theorem c6_redirect_missing_location :
    (DownloadIContent
        ⟨.ok ("http://u/x", false), .error .unsupported, "x", 5, 0⟩
        emptyWriter).1.status = some 302 ∧
    headerGet (DownloadIContent
        ⟨.ok ("http://u/x", false), .error .unsupported, "x", 5, 0⟩
        emptyWriter).1.sent "Location" = none ∧
    (DownloadIContent
        ⟨.ok ("http://u/x", false), .error .unsupported, "x", 5, 0⟩
        emptyWriter).1.body = [] ∧
    (DownloadIContent
        ⟨.ok ("http://u/x", false), .error .unsupported, "x", 5, 0⟩
        emptyWriter).2 = none := by
  decide

end Http

end GoDrive
